import Mathlib

/-!
Verification of the sorting-based 1-D set operations module
(`numpy/lib/arraysetops.py`, 2007 revision): `unique1d`, `intersect1d`,
`intersect1d_nu`, `setxor1d`, `setmember1d`, `union1d`, `setdiff1d`.

Arrays of orderable numeric elements are embedded as `List ℤ`.  Numpy
primitives are embedded as follows:

* boolean fancy indexing `arr[mask]` keeps the entries of `arr` whose
  mask bit is true (old-numpy semantics: a shorter mask selects among
  the first `mask.size` entries, which is what zipping produces);
* `arr.sort()` / sorted copies are embedded with insertion sort, which
  produces the unique ascending reordering of the values, exactly as
  any correct ascending sort of a value array does;
* `arr.argsort(kind='mergesort')` (a stable argsort) is embedded as the
  permutation of `range n` ordered by the lexicographic key
  `(value at index, index)` — the characteristic property of a stable
  argsort.  `arr.argsort()` (unstable, tie-break unspecified in the
  source) is embedded by the same deterministic argsort, a legitimate
  instance of the unspecified tie-break;
* the vectorised fancy assignment
  `aux = perm[ii+1]; perm[ii+1] = perm[ii]; perm[ii] = aux` is embedded
  pointwise: position `p` receives the old `perm[p+1]` when `p ∈ ii`,
  otherwise the old `perm[p-1]` when `p-1 ∈ ii`, otherwise it is
  unchanged (the second gather-scatter overwrites the first wherever
  both hit the same cell, exactly as numpy executes it).
-/

/-- Boolean fancy indexing `l[m]`: keep entries of `l` whose mask bit in `m`
is `true`.  `zip` truncates to the shorter operand, matching old-numpy
behaviour of a short boolean mask (`aux[aux[1:] == aux[:-1]]`). -/
def boolSelect {α : Type} (l : List α) (m : List Bool) : List α :=
  (l.zip m).filterMap (fun p => if p.2 then some p.1 else none)

/-- Ascending sort of an integer array (`arr.sort()` / `np.sort`). -/
def sortInts (l : List ℤ) : List ℤ :=
  l.insertionSort (fun x y => x ≤ y)

/-- The comparison `arr[1:] != arr[:-1]`: entry `i` is `arr[i+1] ≠ arr[i]`. -/
def neFlags (s : List ℤ) : List Bool :=
  List.zipWith (fun x y => x != y) (s.drop 1) s

/-- The comparison `arr[1:] == arr[:-1]`: entry `i` is `arr[i+1] = arr[i]`. -/
def eqFlags (s : List ℤ) : List Bool :=
  List.zipWith (fun x y => x == y) (s.drop 1) s

/-- The stable argsort order on indices of `l`: index `i` precedes `j` when
its value is smaller, with ties broken by original position. -/
def krel {α : Type} [LinearOrder α] (d : α) (l : List α) (i j : ℕ) : Prop :=
  l.getD i d < l.getD j d ∨ (l.getD i d = l.getD j d ∧ i ≤ j)

instance {α : Type} [LinearOrder α] (d : α) (l : List α) :
    DecidableRel (krel d l) := by
  intro i j
  unfold krel
  infer_instance

/-- Stable argsort (`arr.argsort(kind='mergesort')`): the permutation of
`range arr.size` sorted by the key `(value, original index)`. -/
def argsortKey {α : Type} [LinearOrder α] (d : α) (l : List α) : List ℕ :=
  (List.range l.length).insertionSort (krel d l)

/-- The strict part of the stable argsort order: strictly smaller value, or
equal value and strictly earlier original position. -/
def krelS {α : Type} [LinearOrder α] (d : α) (l : List α) (i j : ℕ) : Prop :=
  l.getD i d < l.getD j d ∨ (l.getD i d = l.getD j d ∧ i < j)

instance {α : Type} [LinearOrder α] (d : α) (l : List α) :
    DecidableRel (krelS d l) := by
  intro i j
  unfold krelS
  infer_instance

/-- Find the unique elements of an array (`unique1d`, no index request):
sort, then keep position `0` and every position whose value differs from
its predecessor. -/
def unique1d (ar1 : List ℤ) : List ℤ :=
  if ar1.length = 0 then ar1
  else
    let ar := sortInts ar1
    boolSelect ar (true :: neFlags ar)

/-- The dtype of the index array returned by `unique1d(..., return_index=True)`:
the degenerate empty-input branch returns a boolean-typed empty array
(`np.empty(0, np.bool)`), the main branch an integer-typed one. -/
inductive IdxArray : Type
  | boolIdx (l : List Bool)
  | intIdx (l : List ℕ)
deriving DecidableEq

/-- Number of entries of an index array. -/
def IdxArray.size : IdxArray → ℕ
  | .boolIdx l => l.length
  | .intIdx l => l.length

/-- Entry `i` of an integer-typed index array (default `0`); the
boolean-typed form only ever occurs empty. -/
def IdxArray.natAt : IdxArray → ℕ → ℕ
  | .boolIdx _, _ => 0
  | .intIdx l, i => l.getD i 0

/-- Find the unique elements of an array (`unique1d` with
`return_index=True`): returns `(perm[flag], aux[flag])` where `perm` is an
argsort of the input and `aux` the sorted values. -/
def unique1dIdx (ar1 : List ℤ) : IdxArray × List ℤ :=
  if ar1.length = 0 then (.boolIdx [], ar1)
  else
    let perm := argsortKey 0 ar1
    let aux := perm.map (fun p => ar1.getD p 0)
    let flag := true :: neFlags aux
    (.intIdx (boolSelect perm flag), boolSelect aux flag)

/-- Intersection with repetitions (`intersect1d`):
`aux = sort(ar1 ++ ar2); return aux[aux[1:] == aux[:-1]]`. -/
def intersect1d (ar1 ar2 : List ℤ) : List ℤ :=
  let aux := sortInts (ar1 ++ ar2)
  boolSelect aux (eqFlags aux)

/-- Intersection with unique elements (`intersect1d_nu`): dedup each input,
concatenate, sort, keep values equal to their successor. -/
def intersect1d_nu (ar1 ar2 : List ℤ) : List ℤ :=
  let aux := sortInts (unique1d ar1 ++ unique1d ar2)
  boolSelect aux (eqFlags aux)

/-- The flag sequence built by `setxor1d`:
`concatenate(([True], aux[1:] != aux[:-1], [True]))` over the sorted
concatenation. -/
def setxorFlag (ar1 ar2 : List ℤ) : List Bool :=
  true :: (neFlags (sortInts (ar1 ++ ar2)) ++ [true])

/-- Set exclusive-or (`setxor1d`): `flag2 = flag[1:] == flag[:-1]`, then
`aux[flag2]`. -/
def setxor1d (ar1 ar2 : List ℤ) : List ℤ :=
  if (ar1 ++ ar2).length = 0 then ar1 ++ ar2
  else
    let aux := sortInts (ar1 ++ ar2)
    let flag := setxorFlag ar1 ar2
    let flag2 := List.zipWith (fun x y => x == y) (flag.drop 1) flag
    boolSelect aux flag2

/-- Union (`union1d`): dedup of the concatenation. -/
def union1d (ar1 ar2 : List ℤ) : List ℤ :=
  unique1d (ar1 ++ ar2)

/-- Origin tags of `setmember1d`: `0` for each entry of `ar1`, `1` for each
entry of `ar2` (`b1 = zeros(ar1.shape); b2 = ones(ar2.shape)`). -/
def smTags (ar1 ar2 : List ℤ) : List ℤ :=
  List.replicate ar1.length 0 ++ List.replicate ar2.length 1

/-- The stable sort permutation of `setmember1d`:
`perm = ar.argsort(kind='mergesort')` over `ar = concatenate(ar1, ar2)`. -/
def smPerm (ar1 ar2 : List ℤ) : List ℕ :=
  argsortKey 0 (ar1 ++ ar2)

/-- Sorted values `aux = ar[perm]` of `setmember1d`. -/
def smAux (ar1 ar2 : List ℤ) : List ℤ :=
  (smPerm ar1 ar2).map (fun p => (ar1 ++ ar2).getD p 0)

/-- Sorted origin tags `aux2 = tt[perm]` of `setmember1d`. -/
def smAux2 (ar1 ar2 : List ℤ) : List ℤ :=
  (smPerm ar1 ar2).map (fun p => (smTags ar1 ar2).getD p 0)

/-- The flag of `setmember1d`:
`flag = concatenate((aux[1:] == aux[:-1], [False]))`. -/
def smFlag (ar1 ar2 : List ℤ) : List Bool :=
  eqFlags (smAux ar1 ar2) ++ [false]

/-- The swap positions of `setmember1d`: `ii = where(flag * aux2)[0]`,
i.e. the flagged sorted positions whose origin tag is nonzero. -/
def smII (ar1 ar2 : List ℤ) : List ℕ :=
  (List.range (ar1 ++ ar2).length).filter
    (fun p => (smFlag ar1 ar2).getD p false && ((smAux2 ar1 ar2).getD p 0 != 0))

/-- The permutation after the fancy-assignment swap
`aux = perm[ii+1]; perm[ii+1] = perm[ii]; perm[ii] = aux`, executed
pointwise as numpy does (the second scatter overwrites the first). -/
def smPerm2 (ar1 ar2 : List ℤ) : List ℕ :=
  (List.range (ar1 ++ ar2).length).map (fun p =>
    if p ∈ smII ar1 ar2 then (smPerm ar1 ar2).getD (p + 1) 0
    else if 1 ≤ p ∧ p - 1 ∈ smII ar1 ar2 then (smPerm ar1 ar2).getD (p - 1) 0
    else (smPerm ar1 ar2).getD p 0)

/-- The index array of `setmember1d`:
`indx = perm.argsort(kind='mergesort')[:len(ar1)]`. -/
def smIndx (ar1 ar2 : List ℤ) : List ℕ :=
  (argsortKey 0 (smPerm2 ar1 ar2)).take ar1.length

/-- Membership test (`setmember1d`): mask over `ar1`, `return flag[indx]`. -/
def setmember1d (ar1 ar2 : List ℤ) : List Bool :=
  (smIndx ar1 ar2).map (fun q => (smFlag ar1 ar2).getD q false)

/-- Set difference (`setdiff1d`): `aux = setmember1d(ar1, ar2)`; if the mask
is empty return it (an empty array), else `ar1[aux == 0]`. -/
def setdiff1d (ar1 ar2 : List ℤ) : List ℤ :=
  let aux := setmember1d ar1 ar2
  if aux.length = 0 then []
  else boolSelect ar1 (aux.map (fun m => m == false))

/-- The membership algorithm without the swap step: stable sort, flag,
invert the permutation, take the first `len(ar1)` entries, index the
flags.  (`setmember1d` is proved equal to this function.) -/
def noSwapMembership (ar1 ar2 : List ℤ) : List Bool :=
  ((argsortKey 0 (smPerm ar1 ar2)).take ar1.length).map
    (fun q => (smFlag ar1 ar2).getD q false)

/-- The membership algorithm as the specification describes it, swapping at
flagged positions whose origin tag is 0 instead of 1: used to compare the
code against the specified algorithm. -/
def specSwapPos (ar1 ar2 : List ℤ) : List ℕ :=
  (List.range (ar1 ++ ar2).length).filter
    (fun p => (smFlag ar1 ar2).getD p false && ((smAux2 ar1 ar2).getD p 0 == 0))

/-- The permutation after the specification's tag-0 swap step. -/
def specPerm2 (ar1 ar2 : List ℤ) : List ℕ :=
  (List.range (ar1 ++ ar2).length).map (fun p =>
    if p ∈ specSwapPos ar1 ar2 then (smPerm ar1 ar2).getD (p + 1) 0
    else if 1 ≤ p ∧ p - 1 ∈ specSwapPos ar1 ar2 then (smPerm ar1 ar2).getD (p - 1) 0
    else (smPerm ar1 ar2).getD p 0)

/-- Membership as described by the specification (tag-0 swap fixup, then
invert, take, index the flags). -/
def specMembership (ar1 ar2 : List ℤ) : List Bool :=
  (((argsortKey 0 (specPerm2 ar1 ar2)).take ar1.length)).map
    (fun q => (smFlag ar1 ar2).getD q false)

/-- The symmetric-difference flag sequence as the specification words it
(amended length `len(m) + 1`): `f[0] = true`, `f[len m] = true`, interior
`f[i] = (m[i] ≠ m[i-1])`. -/
def specXorFlag (m : List ℤ) : List Bool :=
  (List.range (m.length + 1)).map (fun i =>
    if i = 0 ∨ i = m.length then true else (m.getD i 0 != m.getD (i - 1) 0))

/-- Symmetric difference as the specification words it: sort the
concatenation into `m`, build `f`, set `g[i] = (f[i] == f[i+1])`, and
output every `m[i]` with `g[i]` true. -/
def specXor (ar1 ar2 : List ℤ) : List ℤ :=
  let m := sortInts (ar1 ++ ar2)
  let g := (List.range m.length).map (fun i =>
    (specXorFlag m).getD i false == (specXorFlag m).getD (i + 1) false)
  boolSelect m g

/-- Recursive form of the dedup selection `ar[concat([True], ar[1:] != ar[:-1])]`
from the second element on: keep each element that differs from its
immediate predecessor. -/
def kfAux (prev : ℤ) : List ℤ → List ℤ
  | [] => []
  | y :: t => if y ≠ prev then y :: kfAux y t else kfAux y t

/-- Recursive form of the full dedup selection: the head is always kept. -/
def kf : List ℤ → List ℤ
  | [] => []
  | x :: t => x :: kfAux x t

/-- Recursive form of the intersection selection `aux[aux[1:] == aux[:-1]]`:
keep each element equal to its immediate successor. -/
def dupSel : List ℤ → List ℤ
  | [] => []
  | [_] => []
  | x :: y :: t => if x = y then x :: dupSel (y :: t) else dupSel (y :: t)

/-- Recursive form of the `setxor1d` selection, parameterised by the flag
bit `bb` sitting just before the current head (`true` at the start). -/
def xorSel (bb : Bool) : List ℤ → List ℤ
  | [] => []
  | [x] => if bb then [x] else []
  | x :: y :: t => (if ((y != x) == bb) then [x] else []) ++ xorSel (y != x) (y :: t)

/-! Basic facts about boolean selection and the flag constructions. -/

theorem boolSelect_nil {α : Type} (m : List Bool) : boolSelect ([] : List α) m = [] := by
  simp [boolSelect]

theorem boolSelect_nil_mask {α : Type} (l : List α) : boolSelect l [] = [] := by
  simp [boolSelect]

theorem boolSelect_cons {α : Type} (x : α) (l : List α) (b : Bool) (m : List Bool) :
    boolSelect (x :: l) (b :: m) = (if b then [x] else []) ++ boolSelect l m := by
  cases b <;> simp [boolSelect]

theorem neFlags_nil : neFlags [] = [] := by simp [neFlags]

theorem neFlags_single (x : ℤ) : neFlags [x] = [] := by simp [neFlags]

theorem neFlags_cons (x y : ℤ) (t : List ℤ) :
    neFlags (x :: y :: t) = (y != x) :: neFlags (y :: t) := by
  simp [neFlags]

theorem eqFlags_nil : eqFlags [] = [] := by simp [eqFlags]

theorem eqFlags_single (x : ℤ) : eqFlags [x] = [] := by simp [eqFlags]

theorem eqFlags_cons (x y : ℤ) (t : List ℤ) :
    eqFlags (x :: y :: t) = (y == x) :: eqFlags (y :: t) := by
  simp [eqFlags]

theorem boolSelect_neFlags_eq_kfAux (t : List ℤ) :
    ∀ prev, boolSelect t (neFlags (prev :: t)) = kfAux prev t := by
  induction t with
  | nil => intro prev; simp [neFlags_single, boolSelect_nil_mask, kfAux]
  | cons y t ih =>
    intro prev
    rw [neFlags_cons, boolSelect_cons, ih y]
    by_cases h : y = prev
    · simp [kfAux, h]
    · simp [kfAux, h]

theorem unique1d_eq_kf (s : List ℤ) : unique1d s = kf (sortInts s) := by
  unfold unique1d
  by_cases h : s.length = 0
  · rw [if_pos h]
    rw [List.length_eq_zero] at h
    subst h
    rfl
  · rw [if_neg h]
    have hlen : (sortInts s).length = s.length :=
      (List.perm_insertionSort _ s).length_eq
    cases hs : sortInts s with
    | nil => rw [hs] at hlen; simp at hlen; omega
    | cons x t =>
      show boolSelect (x :: t) (true :: neFlags (x :: t)) = kf (x :: t)
      rw [boolSelect_cons, boolSelect_neFlags_eq_kfAux]
      simp [kf]

theorem boolSelect_eqFlags_eq_dupSel (s : List ℤ) :
    boolSelect s (eqFlags s) = dupSel s := by
  induction s with
  | nil => simp [eqFlags_nil, boolSelect_nil_mask, dupSel]
  | cons x t ih =>
    cases t with
    | nil => simp [eqFlags_single, boolSelect_nil_mask, dupSel]
    | cons y t' =>
      rw [eqFlags_cons, boolSelect_cons, ih]
      by_cases h : x = y
      · simp [dupSel, h]
      · have : ¬ (y = x) := fun hyx => h hyx.symm
        simp [dupSel, h, this]

theorem boolSelect_xorMask_eq_xorSel (s : List ℤ) :
    ∀ bb, boolSelect s
      (List.zipWith (fun x y => x == y) (neFlags s ++ [true]) (bb :: (neFlags s ++ [true])))
      = xorSel bb s := by
  induction s with
  | nil => intro bb; simp [neFlags_nil, boolSelect_nil, xorSel]
  | cons x t ih =>
    intro bb
    cases t with
    | nil =>
      cases bb <;> simp [neFlags_single, xorSel, boolSelect_cons, boolSelect_nil]
    | cons y t' =>
      rw [neFlags_cons]
      show boolSelect (x :: y :: t')
        (((y != x) == bb) :: List.zipWith (fun x y => x == y)
          (neFlags (y :: t') ++ [true]) ((y != x) :: (neFlags (y :: t') ++ [true])))
        = xorSel bb (x :: y :: t')
      rw [boolSelect_cons, ih (y != x)]
      show (if ((y != x) == bb) then [x] else []) ++ xorSel (y != x) (y :: t')
        = xorSel bb (x :: y :: t')
      rfl

theorem setxor1d_eq_xorSel (a b : List ℤ) :
    setxor1d a b = xorSel true (sortInts (a ++ b)) := by
  unfold setxor1d
  by_cases h : (a ++ b).length = 0
  · rw [if_pos h]
    rw [List.length_eq_zero] at h
    rw [h]
    rfl
  · rw [if_neg h]
    show boolSelect (sortInts (a ++ b))
      (List.zipWith (fun x y => x == y) ((setxorFlag a b).drop 1) (setxorFlag a b))
      = xorSel true (sortInts (a ++ b))
    unfold setxorFlag
    rw [List.drop_one, List.tail_cons]
    exact boolSelect_xorMask_eq_xorSel (sortInts (a ++ b)) true

/-! Sublist facts: every selection is a sublist of the sorted source. -/

theorem kfAux_sublist (t : List ℤ) : ∀ prev, (kfAux prev t).Sublist t := by
  induction t with
  | nil => intro prev; simp [kfAux]
  | cons y t ih =>
    intro prev
    unfold kfAux
    by_cases h : y = prev
    · rw [if_neg (by simp [h])]
      exact (ih y).cons y
    · rw [if_pos h]
      exact (ih y).cons₂ y

theorem kf_sublist (s : List ℤ) : (kf s).Sublist s := by
  cases s with
  | nil => simp [kf]
  | cons x t => exact (kfAux_sublist t x).cons₂ x

theorem dupSel_sublist (s : List ℤ) : (dupSel s).Sublist s := by
  induction s with
  | nil => simp [dupSel]
  | cons x t ih =>
    cases t with
    | nil => simp [dupSel]
    | cons y t' =>
      unfold dupSel
      by_cases h : x = y
      · simp only [h, if_true]
        exact ih.cons₂ _
      · simp only [h, if_false]
        exact ih.cons _

/-! Sorting facts. -/

theorem sortInts_perm (l : List ℤ) : (sortInts l).Perm l :=
  List.perm_insertionSort _ l

theorem sortInts_sorted (l : List ℤ) : (sortInts l).Pairwise (fun x y => x ≤ y) :=
  List.sorted_insertionSort _ l

theorem sortInts_length (l : List ℤ) : (sortInts l).length = l.length :=
  (sortInts_perm l).length_eq

theorem pairwise_lt_of_le_nodup {l : List ℤ}
    (hle : l.Pairwise (fun x y => x ≤ y)) (hnd : l.Nodup) :
    l.Pairwise (fun x y => x < y) :=
  (hle.and hnd).imp (fun h => lt_of_le_of_ne h.1 h.2)

theorem sortInts_eq_of_perm {l l' : List ℤ} (h : l.Perm l') :
    sortInts l = sortInts l' := by
  refine List.eq_of_perm_of_sorted ?_ (sortInts_sorted l) (sortInts_sorted l')
  exact ((sortInts_perm l).trans h).trans (sortInts_perm l').symm

/-! Membership and ordering facts about the dedup selection. -/

theorem mem_of_mem_kfAux {x prev : ℤ} {t : List ℤ} (h : x ∈ kfAux prev t) : x ∈ t :=
  (kfAux_sublist t prev).subset h

theorem mem_kfAux_or_eq {x : ℤ} (t : List ℤ) :
    ∀ prev, x ∈ t → x ∈ kfAux prev t ∨ x = prev := by
  induction t with
  | nil => intro prev h; cases h
  | cons y t ih =>
    intro prev h
    unfold kfAux
    by_cases hy : y = prev
    · rw [if_neg (by simp [hy])]
      rcases List.mem_cons.mp h with h1 | h1
      · right; rw [h1, hy]
      · rcases ih y h1 with h2 | h2
        · left; exact h2
        · right; rw [h2, hy]
    · rw [if_pos hy]
      rcases List.mem_cons.mp h with h1 | h1
      · left; rw [h1]; exact List.mem_cons_self y _
      · rcases ih y h1 with h2 | h2
        · left; exact List.mem_cons_of_mem y h2
        · left; rw [h2]; exact List.mem_cons_self y _

theorem mem_kf_iff {x : ℤ} {s : List ℤ} : x ∈ kf s ↔ x ∈ s := by
  cases s with
  | nil => simp [kf]
  | cons a t =>
    constructor
    · intro h
      exact (kf_sublist (a :: t)).subset h
    · intro h
      unfold kf
      rcases List.mem_cons.mp h with h1 | h1
      · rw [h1]; exact List.mem_cons_self a _
      · rcases mem_kfAux_or_eq t a h1 with h2 | h2
        · exact List.mem_cons_of_mem a h2
        · rw [h2]; exact List.mem_cons_self a _

theorem kfAux_pairwise_lt (t : List ℤ) :
    ∀ prev, (prev :: t).Pairwise (fun x y => x ≤ y) →
      (kfAux prev t).Pairwise (fun x y => x < y) ∧ ∀ z ∈ kfAux prev t, prev < z := by
  induction t with
  | nil => intro prev _; exact ⟨List.Pairwise.nil, by intro z hz; cases hz⟩
  | cons y t ih =>
    intro prev hp
    have hpy : prev ≤ y := (List.pairwise_cons.mp hp).1 y (List.mem_cons_self y t)
    have hyt : (y :: t).Pairwise (fun x y => x ≤ y) := (List.pairwise_cons.mp hp).2
    obtain ⟨ihp, ihb⟩ := ih y hyt
    unfold kfAux
    by_cases hy : y = prev
    · rw [if_neg (by simp [hy])]
      constructor
      · exact ihp
      · intro z hz
        have := ihb z hz
        omega
    · rw [if_pos hy]
      have hlt : prev < y := lt_of_le_of_ne hpy (fun h => hy h.symm)
      constructor
      · exact List.pairwise_cons.mpr ⟨ihb, ihp⟩
      · intro z hz
        rcases List.mem_cons.mp hz with h1 | h1
        · rw [h1]; exact hlt
        · exact lt_trans hlt (ihb z h1)

theorem kf_pairwise_lt {s : List ℤ} (hs : s.Pairwise (fun x y => x ≤ y)) :
    (kf s).Pairwise (fun x y => x < y) := by
  cases s with
  | nil => exact List.Pairwise.nil
  | cons a t =>
    obtain ⟨hp, hb⟩ := kfAux_pairwise_lt t a hs
    exact List.pairwise_cons.mpr ⟨hb, hp⟩

theorem kfAux_eq_self (t : List ℤ) :
    ∀ prev, (prev :: t).Pairwise (fun x y => x < y) → kfAux prev t = t := by
  induction t with
  | nil => intro prev _; rfl
  | cons y t ih =>
    intro prev hp
    have hpy : prev < y := (List.pairwise_cons.mp hp).1 y (List.mem_cons_self y t)
    have hyt : (y :: t).Pairwise (fun x y => x < y) := (List.pairwise_cons.mp hp).2
    unfold kfAux
    rw [if_pos (by omega), ih y hyt]

theorem kf_eq_self {s : List ℤ} (hs : s.Pairwise (fun x y => x < y)) : kf s = s := by
  cases s with
  | nil => rfl
  | cons a t =>
    simp only [kf]
    rw [kfAux_eq_self t a hs]

/-! Facts about `unique1d`. -/

theorem unique1d_pairwise_lt (s : List ℤ) :
    (unique1d s).Pairwise (fun x y => x < y) := by
  rw [unique1d_eq_kf]
  exact kf_pairwise_lt (sortInts_sorted s)

theorem mem_unique1d_iff {x : ℤ} {s : List ℤ} : x ∈ unique1d s ↔ x ∈ s := by
  rw [unique1d_eq_kf, mem_kf_iff]
  exact (sortInts_perm s).mem_iff

theorem unique1d_idempotent (s : List ℤ) : unique1d (unique1d s) = unique1d s := by
  have hlt : (unique1d s).Pairwise (fun x y => x < y) := unique1d_pairwise_lt s
  rw [unique1d_eq_kf (unique1d s)]
  have hsorted : (unique1d s).Pairwise (fun x y => x ≤ y) :=
    hlt.imp le_of_lt
  have : sortInts (unique1d s) = unique1d s :=
    List.Sorted.insertionSort_eq hsorted
  rw [this, kf_eq_self hlt]

theorem unique1d_eq_sortInts_of_nodup {s : List ℤ} (h : s.Nodup) :
    unique1d s = sortInts s := by
  rw [unique1d_eq_kf]
  refine kf_eq_self (pairwise_lt_of_le_nodup (sortInts_sorted s) ?_)
  exact ((sortInts_perm s).nodup_iff).mpr h

theorem unique1d_perm_of_nodup {s : List ℤ} (h : s.Nodup) :
    (unique1d s).Perm s := by
  rw [unique1d_eq_sortInts_of_nodup h]
  exact sortInts_perm s

/-! Count facts about the intersection selection. -/

theorem dupSel_count {s : List ℤ} (hs : s.Pairwise (fun x y => x ≤ y)) (v : ℤ) :
    (dupSel s).count v = s.count v - 1 := by
  induction s with
  | nil => simp [dupSel]
  | cons x t ih =>
    cases t with
    | nil =>
      by_cases hv : v = x <;> simp [dupSel, List.count_cons, hv]
    | cons y t' =>
      have hxy : x ≤ y := (List.pairwise_cons.mp hs).1 y (List.mem_cons_self y t')
      have hyt : (y :: t').Pairwise (fun x y => x ≤ y) := (List.pairwise_cons.mp hs).2
      have ihc := ih hyt
      unfold dupSel
      by_cases h : x = y
      · rw [if_pos h]
        subst h
        simp only [List.count_cons, ihc, beq_iff_eq]
        split_ifs <;> omega
      · rw [if_neg h]
        simp only [List.count_cons, ihc, beq_iff_eq]
        by_cases hv : x = v
        · subst hv
          have hxlt : x < y := lt_of_le_of_ne hxy h
          have hnt : x ∉ t' := by
            intro h1
            have hyx : y ≤ x := (List.pairwise_cons.mp hyt).1 x h1
            omega
          have hc0 : List.count x t' = 0 := List.count_eq_zero.mpr hnt
          split_ifs <;> omega
        · split_ifs <;> omega

theorem intersect1d_eq_dupSel (a b : List ℤ) :
    intersect1d a b = dupSel (sortInts (a ++ b)) := by
  unfold intersect1d
  exact boolSelect_eqFlags_eq_dupSel _

theorem intersect1d_count (a b : List ℤ) (v : ℤ) :
    (intersect1d a b).count v = (a ++ b).count v - 1 := by
  rw [intersect1d_eq_dupSel, dupSel_count (sortInts_sorted _) v,
    (sortInts_perm (a ++ b)).count_eq v]

theorem intersect1d_sorted (a b : List ℤ) :
    (intersect1d a b).Pairwise (fun x y => x ≤ y) := by
  rw [intersect1d_eq_dupSel]
  exact List.Pairwise.sublist (dupSel_sublist _) (sortInts_sorted _)

/-! Facts about `intersect1d_nu` and the symmetric difference length. -/

theorem mem_dupSel_iff {s : List ℤ} (hs : s.Pairwise (fun x y => x ≤ y)) {x : ℤ} :
    x ∈ dupSel s ↔ 2 ≤ s.count x := by
  rw [← List.count_pos_iff, dupSel_count hs]
  omega

theorem intersect1d_nu_eq_dupSel {a b : List ℤ} (ha : a.Nodup) (hb : b.Nodup) :
    intersect1d_nu a b = dupSel (sortInts (a ++ b)) := by
  unfold intersect1d_nu
  rw [boolSelect_eqFlags_eq_dupSel]
  have hperm : (unique1d a ++ unique1d b).Perm (a ++ b) :=
    (unique1d_perm_of_nodup ha).append (unique1d_perm_of_nodup hb)
  rw [sortInts_eq_of_perm hperm]

theorem mem_intersect1d_nu_iff {a b : List ℤ} (ha : a.Nodup) (hb : b.Nodup) {x : ℤ} :
    x ∈ intersect1d_nu a b ↔ x ∈ a ∧ x ∈ b := by
  rw [intersect1d_nu_eq_dupSel ha hb, mem_dupSel_iff (sortInts_sorted _),
    (sortInts_perm (a ++ b)).count_eq, List.count_append]
  have hca := List.nodup_iff_count_le_one.mp ha x
  have hcb := List.nodup_iff_count_le_one.mp hb x
  rw [← List.count_pos_iff (a := x) (l := a), ← List.count_pos_iff (a := x) (l := b)]
  omega

theorem count_tail_le (w : ℤ) (r : List ℤ) (v : ℤ) :
    List.count v r ≤ List.count v (w :: r) := by
  rw [List.count_cons]
  omega

theorem xorSel_dupSel_length :
    ∀ (n : ℕ) (s : List ℤ), s.length ≤ n → s.Pairwise (fun x y => x ≤ y) →
      (∀ v, s.count v ≤ 2) →
      (xorSel true s).length + 2 * (dupSel s).length = s.length := by
  intro n
  induction n with
  | zero =>
    intro s hle _ _
    have : s = [] := List.length_eq_zero.mp (by omega)
    subst this
    rfl
  | succ n ih =>
    intro s hle hs hc
    match s with
    | [] => rfl
    | [x] => rfl
    | x :: y :: t =>
      by_cases h : x = y
      · subst h
        have h1 : xorSel true (x :: x :: t) = xorSel false (x :: t) := by
          show (if ((x != x) == true) then [x] else []) ++ xorSel (x != x) (x :: t)
            = xorSel false (x :: t)
          rw [bne_self_eq_false]
          rfl
        have h2 : dupSel (x :: x :: t) = x :: dupSel (x :: t) := by
          simp only [dupSel]
          simp
        rw [h1, h2]
        cases t with
        | nil => rfl
        | cons z t' =>
          have hzx : ¬ (z = x) := by
            intro hzq
            have := hc x
            subst hzq
            simp [List.count_cons] at this
          have h3 : xorSel false (x :: z :: t') = xorSel true (z :: t') := by
            show (if ((z != x) == false) then [x] else []) ++ xorSel (z != x) (z :: t')
              = xorSel true (z :: t')
            have hbne : (z != x) = true := bne_iff_ne.mpr hzx
            rw [hbne]
            rfl
          have h4 : dupSel (x :: z :: t') = dupSel (z :: t') := by
            simp only [dupSel]
            rw [if_neg (fun hq => hzx hq.symm)]
          rw [h3, h4]
          have hsz : (z :: t').Pairwise (fun x y => x ≤ y) :=
            ((List.pairwise_cons.mp ((List.pairwise_cons.mp hs).2)).2)
          have hcz : ∀ v, (z :: t').count v ≤ 2 := by
            intro v
            have := hc v
            have h5 := count_tail_le x (z :: t') v
            have h6 := count_tail_le x (x :: z :: t') v
            omega
          have hlen : (z :: t').length ≤ n := by
            simp only [List.length_cons] at hle ⊢
            omega
          have := ih (z :: t') hlen hsz hcz
          simp only [List.length_cons, dupSel] at this ⊢
          omega
      · have h1 : xorSel true (x :: y :: t) = x :: xorSel true (y :: t) := by
          show (if ((y != x) == true) then [x] else []) ++ xorSel (y != x) (y :: t)
            = x :: xorSel true (y :: t)
          have hbne : (y != x) = true := bne_iff_ne.mpr (fun hq => h hq.symm)
          rw [hbne]
          rfl
        have h2 : dupSel (x :: y :: t) = dupSel (y :: t) := by
          simp only [dupSel]
          rw [if_neg h]
        rw [h1, h2]
        have hsy : (y :: t).Pairwise (fun x y => x ≤ y) := (List.pairwise_cons.mp hs).2
        have hcy : ∀ v, (y :: t).count v ≤ 2 := by
          intro v
          have := hc v
          have h5 := count_tail_le x (y :: t) v
          omega
        have hlen : (y :: t).length ≤ n := by
          simp only [List.length_cons] at hle ⊢
          omega
        have := ih (y :: t) hlen hsy hcy
        simp only [List.length_cons] at this ⊢
        omega

theorem setxor_add_two_inter (a b : List ℤ) (ha : a.Nodup) (hb : b.Nodup) :
    (setxor1d a b).length + 2 * (intersect1d_nu a b).length = a.length + b.length := by
  rw [setxor1d_eq_xorSel, intersect1d_nu_eq_dupSel ha hb]
  have hc : ∀ v, (sortInts (a ++ b)).count v ≤ 2 := by
    intro v
    rw [(sortInts_perm _).count_eq, List.count_append]
    have hca := List.nodup_iff_count_le_one.mp ha v
    have hcb := List.nodup_iff_count_le_one.mp hb v
    omega
  have := xorSel_dupSel_length (sortInts (a ++ b)).length (sortInts (a ++ b))
    le_rfl (sortInts_sorted _) hc
  rw [sortInts_length, List.length_append] at this
  omega

/-! The `setxor1d` code computes the specification's flag construction with
flag length `len m + 1`. -/

theorem beqComm (a b : Bool) : (a == b) = (b == a) := by
  cases a <;> cases b <;> rfl

theorem neFlags_length (m : List ℤ) : (neFlags m).length = m.length - 1 := by
  unfold neFlags
  rw [List.length_zipWith, List.length_drop]
  omega

theorem neFlags_getD (m : List ℤ) (k : ℕ) (hk : k + 1 < m.length) :
    (neFlags m).getD k false = (m.getD (k + 1) 0 != m.getD k 0) := by
  have hklen : k < (neFlags m).length := by rw [neFlags_length]; omega
  rw [List.getD_eq_getElem _ _ hklen]
  unfold neFlags
  rw [List.getElem_zipWith, List.getElem_drop]
  rw [List.getD_eq_getElem m 0 hk, List.getD_eq_getElem m 0 (show k < m.length by omega)]
  have hidx : 1 + k = k + 1 := Nat.add_comm 1 k
  simp only [hidx]

theorem codeXorFlag_getD (m : List ℤ) (i : ℕ) (hi : i ≤ m.length) :
    (true :: (neFlags m ++ [true])).getD i false
      = if i = 0 ∨ i = m.length then true
        else (m.getD i 0 != m.getD (i - 1) 0) := by
  cases i with
  | zero => simp
  | succ k =>
    rw [List.getD_cons_succ]
    by_cases hk : k + 1 = m.length
    · have hlen : (neFlags m).length ≤ k := by rw [neFlags_length]; omega
      rw [List.getD_append_right _ _ _ _ hlen]
      have hsub : k - (neFlags m).length = 0 := by rw [neFlags_length]; omega
      rw [hsub, List.getD_cons_zero, if_pos (Or.inr hk)]
    · have hk2 : k + 1 < m.length := by omega
      have hklen : k < (neFlags m).length := by rw [neFlags_length]; omega
      rw [List.getD_append _ _ _ _ hklen, neFlags_getD m k hk2,
        if_neg (by omega)]
      simp

theorem specXorFlag_getD (m : List ℤ) (i : ℕ) (hi : i ≤ m.length) :
    (specXorFlag m).getD i false
      = if i = 0 ∨ i = m.length then true
        else (m.getD i 0 != m.getD (i - 1) 0) := by
  unfold specXorFlag
  have hlen : i < ((List.range (m.length + 1)).map (fun i =>
      if i = 0 ∨ i = m.length then true
      else (m.getD i 0 != m.getD (i - 1) 0))).length := by
    rw [List.length_map, List.length_range]
    omega
  rw [List.getD_eq_getElem _ _ hlen, List.getElem_map, List.getElem_range]

theorem specXor_eq_xorSel (a b : List ℤ) :
    specXor a b = xorSel true (sortInts (a ++ b)) := by
  show boolSelect (sortInts (a ++ b))
      ((List.range (sortInts (a ++ b)).length).map (fun i =>
        (specXorFlag (sortInts (a ++ b))).getD i false
          == (specXorFlag (sortInts (a ++ b))).getD (i + 1) false))
    = xorSel true (sortInts (a ++ b))
  cases hm : sortInts (a ++ b) with
  | nil => rfl
  | cons w t =>
    rw [← hm]
    have hmask : (List.range (sortInts (a ++ b)).length).map (fun i =>
        (specXorFlag (sortInts (a ++ b))).getD i false
          == (specXorFlag (sortInts (a ++ b))).getD (i + 1) false)
      = List.zipWith (fun x y => x == y)
          (neFlags (sortInts (a ++ b)) ++ [true])
          (true :: (neFlags (sortInts (a ++ b)) ++ [true])) := by
      set m := sortInts (a ++ b) with hmdef
      have hn : 1 ≤ m.length := by rw [hm]; simp
      refine List.ext_getElem ?_ ?_
      · simp only [List.length_map, List.length_range, List.length_zipWith,
          List.length_append, List.length_cons, neFlags_length,
          List.length_nil]
        omega
      · intro i h1 h2
        have hin : i < m.length := by
          rw [List.length_map, List.length_range] at h1
          exact h1
        have hb1 : i < (neFlags m ++ [true]).length := by
          rw [List.length_append, neFlags_length]
          simp
          omega
        have hb2 : i < (true :: (neFlags m ++ [true])).length := by
          rw [List.length_cons, List.length_append, neFlags_length]
          simp
          omega
        have hb3 : i + 1 < (true :: (neFlags m ++ [true])).length := by
          rw [List.length_cons, List.length_append, neFlags_length]
          simp
          omega
        rw [List.getElem_map, List.getElem_range, List.getElem_zipWith]
        have hflagLeft : (neFlags m ++ [true])[i] =
            (true :: (neFlags m ++ [true])).getD (i + 1) false := by
          rw [List.getD_eq_getElem _ _ hb3, List.getElem_cons_succ]
        have hflagRight : (true :: (neFlags m ++ [true]))[i] =
            (true :: (neFlags m ++ [true])).getD i false := by
          rw [List.getD_eq_getElem _ _ hb2]
        rw [hflagLeft, hflagRight]
        rw [specXorFlag_getD m i (by omega), specXorFlag_getD m (i + 1) (by omega),
          ← codeXorFlag_getD m i (by omega), ← codeXorFlag_getD m (i + 1) (by omega)]
        exact beqComm _ _
    rw [hmask]
    exact boolSelect_xorMask_eq_xorSel (sortInts (a ++ b)) true

/-! Generic facts about the stable argsort. -/

theorem argsort_perm {α : Type} [LinearOrder α] (d : α) (l : List α) :
    (argsortKey d l).Perm (List.range l.length) :=
  List.perm_insertionSort _ _

theorem argsort_length {α : Type} [LinearOrder α] (d : α) (l : List α) :
    (argsortKey d l).length = l.length := by
  rw [(argsort_perm d l).length_eq, List.length_range]

theorem argsort_nodup {α : Type} [LinearOrder α] (d : α) (l : List α) :
    (argsortKey d l).Nodup :=
  ((argsort_perm d l).nodup_iff).mpr (List.nodup_range _)

theorem argsort_mem {α : Type} [LinearOrder α] (d : α) (l : List α) (p : ℕ) :
    p ∈ argsortKey d l ↔ p < l.length := by
  rw [(argsort_perm d l).mem_iff, List.mem_range]

theorem argsort_sorted {α : Type} [LinearOrder α] (d : α) (l : List α) :
    (argsortKey d l).Pairwise (krel d l) := by
  haveI : IsTotal ℕ (krel d l) := by
    constructor
    intro i j
    rcases lt_trichotomy (l.getD i d) (l.getD j d) with h | h | h
    · exact Or.inl (Or.inl h)
    · rcases Nat.le_total i j with h2 | h2
      · exact Or.inl (Or.inr ⟨h, h2⟩)
      · exact Or.inr (Or.inr ⟨h.symm, h2⟩)
    · exact Or.inr (Or.inl h)
  haveI : IsTrans ℕ (krel d l) := by
    constructor
    intro i j k hij hjk
    rcases hij with h1 | ⟨h1, h1b⟩ <;> rcases hjk with h2 | ⟨h2, h2b⟩
    · exact Or.inl (lt_trans h1 h2)
    · exact Or.inl (h2 ▸ h1)
    · exact Or.inl (h1 ▸ h2)
    · exact Or.inr ⟨h1.trans h2, le_trans h1b h2b⟩
  exact List.sorted_insertionSort _ _

theorem krelS_irrefl {α : Type} [LinearOrder α] (d : α) (l : List α) (p : ℕ) :
    ¬ krelS d l p p := by
  intro h
  rcases h with h | ⟨_, h⟩
  · exact lt_irrefl _ h
  · exact lt_irrefl _ h

theorem krelS_asymm {α : Type} [LinearOrder α] (d : α) (l : List α) (p q : ℕ) :
    krelS d l p q → ¬ krelS d l q p := by
  intro h1 h2
  rcases h1 with h1 | ⟨h1, h1b⟩ <;> rcases h2 with h2 | ⟨h2, h2b⟩
  · exact lt_irrefl _ (lt_trans h1 h2)
  · exact lt_irrefl _ (h2 ▸ h1)
  · exact lt_irrefl _ (h1 ▸ h2)
  · omega

theorem krelS_le {α : Type} [LinearOrder α] {d : α} {l : List α} {i j : ℕ}
    (h : krelS d l i j) : l.getD i d ≤ l.getD j d := by
  rcases h with h | ⟨h, _⟩
  · exact le_of_lt h
  · exact le_of_eq h

theorem argsort_sorted_strict {α : Type} [LinearOrder α] (d : α) (l : List α) :
    (argsortKey d l).Pairwise (krelS d l) := by
  have h := (argsort_sorted d l).and (argsort_nodup d l)
  refine h.imp ?_
  intro i j hij
  obtain ⟨hk, hne⟩ := hij
  rcases hk with h1 | ⟨h1, h1b⟩
  · exact Or.inl h1
  · exact Or.inr ⟨h1, lt_of_le_of_ne h1b hne⟩

/-! Position of an element in a strictly sorted list, by counting. -/

theorem countP_pos_of_pairwise {r : ℕ → ℕ → Prop} [DecidableRel r]
    (hirr : ∀ p, ¬ r p p) (hasym : ∀ p q, r p q → ¬ r q p) :
    ∀ (xs : List ℕ) (j : ℕ), j < xs.length → xs.Pairwise r →
      xs.countP (fun y => decide (r y (xs.getD j 0))) = j := by
  intro xs
  induction xs with
  | nil =>
    intro j hj _
    simp at hj
  | cons x t ih =>
    intro j hj hp
    obtain ⟨hx, hpt⟩ := List.pairwise_cons.mp hp
    cases j with
    | zero =>
      rw [List.getD_cons_zero, List.countP_cons]
      have h2 : t.countP (fun y => decide (r y x)) = 0 := by
        rw [List.countP_eq_zero]
        intro p hpmem
        simp only [decide_eq_true_eq]
        exact hasym x p (hx p hpmem)
      simp [h2, hirr x]
    | succ k =>
      rw [List.getD_cons_succ, List.countP_cons]
      have hk : k < t.length := by
        simp only [List.length_cons] at hj
        omega
      have hmem : t.getD k 0 ∈ t := by
        rw [List.getD_eq_getElem _ _ hk]
        exact List.getElem_mem hk
      have hrx : r x (t.getD k 0) := hx _ hmem
      rw [ih k hk hpt]
      rw [if_pos (show decide (r x (t.getD k 0)) = true from decide_eq_true hrx)]

theorem getD_of_countP {r : ℕ → ℕ → Prop} [DecidableRel r]
    (hirr : ∀ p, ¬ r p p) (hasym : ∀ p q, r p q → ¬ r q p)
    {xs : List ℕ} (hp : xs.Pairwise r) {q j : ℕ} (hq : q ∈ xs)
    (hc : xs.countP (fun y => decide (r y q)) = j) :
    j < xs.length ∧ xs.getD j 0 = q := by
  obtain ⟨k, hk, hget⟩ := List.getElem_of_mem hq
  have hgD : xs.getD k 0 = q := by
    rw [List.getD_eq_getElem _ _ hk]
    exact hget
  have hcnt := countP_pos_of_pairwise hirr hasym xs k hk hp
  rw [hgD] at hcnt
  have hjk : j = k := by rw [← hc, hcnt]
  subst hjk
  exact ⟨hk, hgD⟩

theorem argsort_getD_eq {α : Type} [LinearOrder α] (d : α) (l : List α)
    (q j : ℕ) (hq : q < l.length)
    (hc : (List.range l.length).countP (fun p => decide (krelS d l p q)) = j) :
    j < l.length ∧ (argsortKey d l).getD j 0 = q := by
  have hcnt : (argsortKey d l).countP (fun p => decide (krelS d l p q)) = j := by
    rw [(argsort_perm d l).countP_eq]
    exact hc
  have hmem : q ∈ argsortKey d l := (argsort_mem d l q).mpr hq
  have h := getD_of_countP (krelS_irrefl d l) (krelS_asymm d l)
    (argsort_sorted_strict d l) hmem hcnt
  rw [argsort_length] at h
  exact h

/-! Counting over index ranges. -/

theorem countP_range_getD {α : Type} (l : List α) (d : α) (Q : α → Bool) :
    (List.range l.length).countP (fun p => Q (l.getD p d)) = l.countP Q := by
  induction l with
  | nil => rfl
  | cons x t ih =>
    rw [List.length_cons, List.range_succ_eq_map, List.countP_cons, List.countP_map]
    have hcomp : ((fun p => Q ((x :: t).getD p d)) ∘ Nat.succ)
        = (fun p => Q (t.getD p d)) := by
      funext p
      simp [Function.comp]
    rw [hcomp, ih, List.getD_cons_zero, List.countP_cons]

theorem countP_lt_range (n j : ℕ) :
    (List.range n).countP (fun p => decide (p < j)) = min j n := by
  induction n with
  | zero => simp
  | succ n ih =>
    rw [List.range_succ, List.countP_append, ih]
    have hsing : List.countP (fun p => decide (p < j)) [n]
        = if n < j then 1 else 0 := by
      rw [List.countP_cons]
      by_cases h : n < j <;> simp [h]
    rw [hsing]
    by_cases h : n < j
    · rw [if_pos h]; omega
    · rw [if_neg h]; omega

/-! Facts about the membership pipeline of `setmember1d`. -/

theorem krelS_def {α : Type} [LinearOrder α] (d : α) (l : List α) (i j : ℕ) :
    krelS d l i j ↔
      (l.getD i d < l.getD j d ∨ (l.getD i d = l.getD j d ∧ i < j)) :=
  Iff.rfl

theorem eqFlags_length (m : List ℤ) : (eqFlags m).length = m.length - 1 := by
  unfold eqFlags
  rw [List.length_zipWith, List.length_drop]
  omega

theorem eqFlags_getD (m : List ℤ) (k : ℕ) (hk : k + 1 < m.length) :
    (eqFlags m).getD k false = (m.getD (k + 1) 0 == m.getD k 0) := by
  have hklen : k < (eqFlags m).length := by rw [eqFlags_length]; omega
  rw [List.getD_eq_getElem _ _ hklen]
  unfold eqFlags
  rw [List.getElem_zipWith, List.getElem_drop]
  rw [List.getD_eq_getElem m 0 hk, List.getD_eq_getElem m 0 (show k < m.length by omega)]
  have hidx : 1 + k = k + 1 := Nat.add_comm 1 k
  simp only [hidx]

theorem smPerm_length (a b : List ℤ) : (smPerm a b).length = (a ++ b).length :=
  argsort_length 0 (a ++ b)

theorem smPerm_getD_lt (a b : List ℤ) (p : ℕ) (hp : p < (a ++ b).length) :
    (smPerm a b).getD p 0 < (a ++ b).length := by
  have hplen : p < (smPerm a b).length := by rw [smPerm_length]; exact hp
  have hmem : (smPerm a b).getD p 0 ∈ smPerm a b := by
    rw [List.getD_eq_getElem _ _ hplen]
    exact List.getElem_mem hplen
  exact (argsort_mem 0 (a ++ b) _).mp hmem

theorem smPerm_indexOf_lt (a b : List ℤ) (j : ℕ) (hj : j < (a ++ b).length) :
    List.indexOf j (smPerm a b) < (a ++ b).length := by
  have hmem : j ∈ smPerm a b := (argsort_mem 0 (a ++ b) j).mpr hj
  have h := List.indexOf_lt_length.mpr hmem
  rw [smPerm_length] at h
  exact h

theorem smPerm_getD_indexOf (a b : List ℤ) (j : ℕ) (hj : j < (a ++ b).length) :
    (smPerm a b).getD (List.indexOf j (smPerm a b)) 0 = j := by
  have hmem : j ∈ smPerm a b := (argsort_mem 0 (a ++ b) j).mpr hj
  have hlt := List.indexOf_lt_length.mpr hmem
  rw [List.getD_eq_getElem _ _ hlt]
  exact List.getElem_indexOf hlt

theorem smPerm_indexOf_unique (a b : List ℤ) (p j : ℕ)
    (hp : p < (a ++ b).length) (hval : (smPerm a b).getD p 0 = j) :
    p = List.indexOf j (smPerm a b) := by
  have hj : j < (a ++ b).length := by rw [← hval]; exact smPerm_getD_lt a b p hp
  have hmem : j ∈ smPerm a b := (argsort_mem 0 (a ++ b) j).mpr hj
  have hlt := List.indexOf_lt_length.mpr hmem
  have hplen : p < (smPerm a b).length := by rw [smPerm_length]; exact hp
  have h1 : (smPerm a b)[p] = (smPerm a b)[List.indexOf j (smPerm a b)] := by
    rw [List.getElem_indexOf hlt, ← List.getD_eq_getElem _ 0 hplen]
    exact hval
  exact (List.Nodup.getElem_inj_iff (argsort_nodup 0 (a ++ b))).mp h1

theorem smPerm_krelS (a b : List ℤ) (p q : ℕ) (hpq : p < q)
    (hq : q < (a ++ b).length) :
    krelS 0 (a ++ b) ((smPerm a b).getD p 0) ((smPerm a b).getD q 0) := by
  unfold smPerm
  have hqlen : q < (argsortKey 0 (a ++ b)).length := by
    rw [argsort_length]
    exact hq
  have hplen : p < (argsortKey 0 (a ++ b)).length := lt_trans hpq hqlen
  have h := (List.pairwise_iff_getElem.mp (argsort_sorted_strict 0 (a ++ b)))
    p q hplen hqlen hpq
  rwa [← List.getD_eq_getElem _ 0 hplen, ← List.getD_eq_getElem _ 0 hqlen] at h

theorem smPerm_lt_of_krelS (a b : List ℤ) (p q : ℕ)
    (hp : p < (a ++ b).length) (hq : q < (a ++ b).length)
    (h : krelS 0 (a ++ b) ((smPerm a b).getD p 0) ((smPerm a b).getD q 0)) :
    p < q := by
  rcases Nat.lt_trichotomy p q with h1 | h1 | h1
  · exact h1
  · subst h1
    exact absurd h (krelS_irrefl _ _ _)
  · exact absurd h (krelS_asymm _ _ _ _ (smPerm_krelS a b q p h1 hp))

theorem smTags_getD (a b : List ℤ) (v : ℕ) (hv : v < (a ++ b).length) :
    (smTags a b).getD v 0 = if v < a.length then 0 else 1 := by
  unfold smTags
  by_cases h : v < a.length
  · rw [List.getD_append _ _ _ _ (by rw [List.length_replicate]; exact h), if_pos h]
    rw [List.getD_eq_getElem _ _ (by rw [List.length_replicate]; exact h)]
    exact List.getElem_replicate _ _
  · rw [List.getD_append_right _ _ _ _ (by rw [List.length_replicate]; omega), if_neg h]
    have hlen : v - (List.replicate a.length (0:ℤ)).length
        < (List.replicate b.length (1:ℤ)).length := by
      rw [List.length_replicate, List.length_replicate]
      rw [List.length_append] at hv
      omega
    rw [List.getD_eq_getElem _ _ hlen]
    exact List.getElem_replicate _ _

theorem smAux2_getD (a b : List ℤ) (p : ℕ) (hp : p < (a ++ b).length) :
    (smAux2 a b).getD p 0
      = if (smPerm a b).getD p 0 < a.length then 0 else 1 := by
  unfold smAux2
  have hplen : p < ((smPerm a b).map (fun q => (smTags a b).getD q 0)).length := by
    rw [List.length_map, smPerm_length]
    exact hp
  rw [List.getD_eq_getElem _ _ hplen, List.getElem_map]
  have hperm : p < (smPerm a b).length := by rw [smPerm_length]; exact hp
  rw [← List.getD_eq_getElem _ 0 hperm]
  exact smTags_getD a b _ (smPerm_getD_lt a b p hp)

theorem smAux_length (a b : List ℤ) : (smAux a b).length = (a ++ b).length := by
  unfold smAux
  rw [List.length_map, smPerm_length]

theorem smAux_getD (a b : List ℤ) (p : ℕ) (hp : p < (a ++ b).length) :
    (smAux a b).getD p 0 = (a ++ b).getD ((smPerm a b).getD p 0) 0 := by
  unfold smAux
  have hplen : p < ((smPerm a b).map (fun q => (a ++ b).getD q 0)).length := by
    rw [List.length_map, smPerm_length]
    exact hp
  rw [List.getD_eq_getElem _ _ hplen, List.getElem_map]
  have hperm : p < (smPerm a b).length := by rw [smPerm_length]; exact hp
  rw [← List.getD_eq_getElem _ 0 hperm]

theorem smFlag_getD_iff (a b : List ℤ) (p : ℕ) :
    (smFlag a b).getD p false = true ↔
      (p + 1 < (a ++ b).length ∧
        (a ++ b).getD ((smPerm a b).getD (p + 1) 0) 0
          = (a ++ b).getD ((smPerm a b).getD p 0) 0) := by
  unfold smFlag
  by_cases hp : p + 1 < (a ++ b).length
  · have hpflags : p < (eqFlags (smAux a b)).length := by
      rw [eqFlags_length, smAux_length]
      omega
    rw [List.getD_append _ _ _ _ hpflags,
      eqFlags_getD _ _ (by rw [smAux_length]; exact hp),
      smAux_getD a b (p + 1) hp, smAux_getD a b p (by omega), beq_iff_eq]
    constructor
    · intro h
      exact ⟨hp, h⟩
    · intro h
      exact h.2
  · have hge : (eqFlags (smAux a b)).length ≤ p := by
      rw [eqFlags_length, smAux_length]
      omega
    rw [List.getD_append_right _ _ _ _ hge]
    have hsingle : ∀ k : ℕ, ([false] : List Bool).getD k false = false := by
      intro k
      cases k with
      | zero => rfl
      | succ m => rfl
    rw [hsingle]
    constructor
    · intro h
      exact (Bool.false_ne_true h).elim
    · intro h
      exact absurd h.1 hp

theorem smII_mem_iff (a b : List ℤ) (p : ℕ) :
    p ∈ smII a b ↔ (p < (a ++ b).length ∧ (smFlag a b).getD p false = true ∧
      (smAux2 a b).getD p 0 ≠ 0) := by
  unfold smII
  rw [List.mem_filter, List.mem_range]
  constructor
  · intro h
    obtain ⟨h1, h2⟩ := h
    rw [Bool.and_eq_true] at h2
    exact ⟨h1, h2.1, bne_iff_ne.mp h2.2⟩
  · intro h
    obtain ⟨h1, h2, h3⟩ := h
    refine ⟨h1, ?_⟩
    rw [Bool.and_eq_true]
    exact ⟨h2, bne_iff_ne.mpr h3⟩

theorem smII_spec (a b : List ℤ) (p : ℕ) (hp : p ∈ smII a b) :
    p + 1 < (a ++ b).length ∧
    a.length ≤ (smPerm a b).getD p 0 ∧
    a.length ≤ (smPerm a b).getD (p + 1) 0 := by
  obtain ⟨hpn, hflag, htag⟩ := (smII_mem_iff a b p).mp hp
  obtain ⟨hp1, hval⟩ := (smFlag_getD_iff a b p).mp hflag
  have htag2 := smAux2_getD a b p hpn
  have hge : a.length ≤ (smPerm a b).getD p 0 := by
    by_cases h : (smPerm a b).getD p 0 < a.length
    · rw [htag2, if_pos h] at htag
      exact absurd rfl htag
    · omega
  have hkrel := smPerm_krelS a b p (p + 1) (by omega) hp1
  rw [krelS_def] at hkrel
  have hlt : (smPerm a b).getD p 0 < (smPerm a b).getD (p + 1) 0 := by
    rcases hkrel with h | h
    · rw [hval] at h
      exact absurd h (lt_irrefl _)
    · exact h.2
  exact ⟨hp1, hge, by omega⟩

theorem smPerm2_length (a b : List ℤ) :
    (smPerm2 a b).length = (a ++ b).length := by
  unfold smPerm2
  rw [List.length_map, List.length_range]

theorem smPerm2_getD (a b : List ℤ) (p : ℕ) (hp : p < (a ++ b).length) :
    (smPerm2 a b).getD p 0 =
      if p ∈ smII a b then (smPerm a b).getD (p + 1) 0
      else if 1 ≤ p ∧ p - 1 ∈ smII a b then (smPerm a b).getD (p - 1) 0
      else (smPerm a b).getD p 0 := by
  unfold smPerm2
  have hplen : p < ((List.range (a ++ b).length).map (fun p =>
      if p ∈ smII a b then (smPerm a b).getD (p + 1) 0
      else if 1 ≤ p ∧ p - 1 ∈ smII a b then (smPerm a b).getD (p - 1) 0
      else (smPerm a b).getD p 0)).length := by
    rw [List.length_map, List.length_range]
    exact hp
  rw [List.getD_eq_getElem _ _ hplen, List.getElem_map, List.getElem_range]

theorem smPerm2_small_iff (a b : List ℤ) (p v : ℕ) (hp : p < (a ++ b).length)
    (hv : v < a.length) :
    ((smPerm2 a b).getD p 0 = v ↔ (smPerm a b).getD p 0 = v) := by
  rw [smPerm2_getD a b p hp]
  by_cases h1 : p ∈ smII a b
  · rw [if_pos h1]
    obtain ⟨hp1, hge, hge2⟩ := smII_spec a b p h1
    constructor
    · intro h
      omega
    · intro h
      omega
  · rw [if_neg h1]
    by_cases h2 : 1 ≤ p ∧ p - 1 ∈ smII a b
    · rw [if_pos h2]
      obtain ⟨hp1, hge, hge2⟩ := smII_spec a b (p - 1) h2.2
      have hpeq : p - 1 + 1 = p := by omega
      rw [hpeq] at hge2
      constructor
      · intro h
        omega
      · intro h
        omega
    · rw [if_neg h2]

theorem smPerm2_lt_iff (a b : List ℤ) (p j : ℕ) (hp : p < (a ++ b).length)
    (hj : j ≤ a.length) :
    ((smPerm2 a b).getD p 0 < j ↔ (smPerm a b).getD p 0 < j) := by
  constructor
  · intro h
    have hv : (smPerm2 a b).getD p 0 < a.length := by omega
    have := (smPerm2_small_iff a b p _ hp hv).mp rfl
    omega
  · intro h
    have hv : (smPerm a b).getD p 0 < a.length := by omega
    have := (smPerm2_small_iff a b p _ hp hv).mpr rfl
    omega

theorem smPerm_countP_lt (a b : List ℤ) (j : ℕ) (hj : j ≤ (a ++ b).length) :
    (List.range (a ++ b).length).countP
      (fun p => decide ((smPerm a b).getD p 0 < j)) = j := by
  have h1 : (List.range (a ++ b).length).countP
      (fun p => decide ((smPerm a b).getD p 0 < j))
      = (smPerm a b).countP (fun q => decide (q < j)) := by
    have h := countP_range_getD (smPerm a b) 0 (fun q => decide (q < j))
    rw [smPerm_length] at h
    exact h
  rw [h1]
  unfold smPerm
  rw [(argsort_perm 0 (a ++ b)).countP_eq, countP_lt_range]
  omega

theorem smPerm2_countP (a b : List ℤ) (j : ℕ) (hj : j < a.length) :
    (List.range (a ++ b).length).countP
      (fun p => decide (krelS 0 (smPerm2 a b) p (List.indexOf j (smPerm a b)))) = j := by
  have hla : a.length ≤ (a ++ b).length := by rw [List.length_append]; omega
  have hjn : j < (a ++ b).length := by omega
  have hqn : List.indexOf j (smPerm a b) < (a ++ b).length :=
    smPerm_indexOf_lt a b j hjn
  have hqval : (smPerm a b).getD (List.indexOf j (smPerm a b)) 0 = j :=
    smPerm_getD_indexOf a b j hjn
  have hq2val : (smPerm2 a b).getD (List.indexOf j (smPerm a b)) 0 = j :=
    (smPerm2_small_iff a b _ j hqn hj).mpr hqval
  have hcongr : ∀ p ∈ List.range (a ++ b).length,
      ((fun p => decide (krelS 0 (smPerm2 a b) p (List.indexOf j (smPerm a b)))) p = true
        ↔ (fun p => decide ((smPerm2 a b).getD p 0 < j)) p = true) := by
    intro p hpmem
    have hpn : p < (a ++ b).length := List.mem_range.mp hpmem
    simp only [decide_eq_true_eq]
    rw [krelS_def, hq2val]
    constructor
    · intro h
      rcases h with h | h
      · exact h
      · have hpj : (smPerm a b).getD p 0 = j := (smPerm2_small_iff a b p j hpn hj).mp h.1
        have hpq : p = List.indexOf j (smPerm a b) := smPerm_indexOf_unique a b p j hpn hpj
        omega
    · intro h
      exact Or.inl h
  rw [List.countP_congr hcongr]
  have h2 : ∀ p ∈ List.range (a ++ b).length,
      ((fun p => decide ((smPerm2 a b).getD p 0 < j)) p = true
        ↔ (fun p => decide ((smPerm a b).getD p 0 < j)) p = true) := by
    intro p hpmem
    have hpn : p < (a ++ b).length := List.mem_range.mp hpmem
    simp only [decide_eq_true_eq]
    exact smPerm2_lt_iff a b p j hpn (by omega)
  rw [List.countP_congr h2]
  exact smPerm_countP_lt a b j (by omega)

theorem smPerm_self_countP (a b : List ℤ) (j : ℕ) (hj : j < a.length) :
    (List.range (a ++ b).length).countP
      (fun p => decide (krelS 0 (smPerm a b) p (List.indexOf j (smPerm a b)))) = j := by
  have hla : a.length ≤ (a ++ b).length := by rw [List.length_append]; omega
  have hjn : j < (a ++ b).length := by omega
  have hqval : (smPerm a b).getD (List.indexOf j (smPerm a b)) 0 = j :=
    smPerm_getD_indexOf a b j hjn
  have hcongr : ∀ p ∈ List.range (a ++ b).length,
      ((fun p => decide (krelS 0 (smPerm a b) p (List.indexOf j (smPerm a b)))) p = true
        ↔ (fun p => decide ((smPerm a b).getD p 0 < j)) p = true) := by
    intro p hpmem
    have hpn : p < (a ++ b).length := List.mem_range.mp hpmem
    simp only [decide_eq_true_eq]
    rw [krelS_def, hqval]
    constructor
    · intro h
      rcases h with h | h
      · exact h
      · have hpq : p = List.indexOf j (smPerm a b) :=
          smPerm_indexOf_unique a b p j hpn h.1
        omega
    · intro h
      exact Or.inl h
  rw [List.countP_congr hcongr]
  exact smPerm_countP_lt a b j (by omega)

theorem smIndx_getD (a b : List ℤ) (j : ℕ) (hj : j < a.length) :
    (smIndx a b).getD j 0 = List.indexOf j (smPerm a b) := by
  unfold smIndx
  have hla : a.length ≤ (a ++ b).length := by rw [List.length_append]; omega
  have hq : List.indexOf j (smPerm a b) < (smPerm2 a b).length := by
    rw [smPerm2_length]
    exact smPerm_indexOf_lt a b j (by omega)
  have hc : (List.range (smPerm2 a b).length).countP
      (fun p => decide (krelS 0 (smPerm2 a b) p (List.indexOf j (smPerm a b)))) = j := by
    rw [smPerm2_length]
    exact smPerm2_countP a b j hj
  obtain ⟨hjlen, hget⟩ :=
    argsort_getD_eq 0 (smPerm2 a b) (List.indexOf j (smPerm a b)) j hq hc
  have hlen1 : j < (argsortKey 0 (smPerm2 a b)).length := by
    rw [argsort_length]
    exact hjlen
  have hlen2 : j < ((argsortKey 0 (smPerm2 a b)).take a.length).length := by
    rw [List.length_take, argsort_length, smPerm2_length]
    omega
  rw [List.getD_eq_getElem _ _ hlen2, List.getElem_take,
    ← List.getD_eq_getElem _ 0 hlen1]
  exact hget

theorem noswap_indx_getD (a b : List ℤ) (j : ℕ) (hj : j < a.length) :
    ((argsortKey 0 (smPerm a b)).take a.length).getD j 0
      = List.indexOf j (smPerm a b) := by
  have hla : a.length ≤ (a ++ b).length := by rw [List.length_append]; omega
  have hq : List.indexOf j (smPerm a b) < (smPerm a b).length := by
    rw [smPerm_length]
    exact smPerm_indexOf_lt a b j (by omega)
  have hc : (List.range (smPerm a b).length).countP
      (fun p => decide (krelS 0 (smPerm a b) p (List.indexOf j (smPerm a b)))) = j := by
    rw [smPerm_length]
    exact smPerm_self_countP a b j hj
  obtain ⟨hjlen, hget⟩ :=
    argsort_getD_eq 0 (smPerm a b) (List.indexOf j (smPerm a b)) j hq hc
  have hlen1 : j < (argsortKey 0 (smPerm a b)).length := by
    rw [argsort_length]
    exact hjlen
  have hlen2 : j < ((argsortKey 0 (smPerm a b)).take a.length).length := by
    rw [List.length_take, argsort_length, smPerm_length]
    omega
  rw [List.getD_eq_getElem _ _ hlen2, List.getElem_take,
    ← List.getD_eq_getElem _ 0 hlen1]
  exact hget

theorem setmember1d_length (a b : List ℤ) :
    (setmember1d a b).length = a.length := by
  unfold setmember1d smIndx
  rw [List.length_map, List.length_take, argsort_length, smPerm2_length,
    List.length_append]
  omega

theorem smIndx_length (a b : List ℤ) : (smIndx a b).length = a.length := by
  unfold smIndx
  rw [List.length_take, argsort_length, smPerm2_length, List.length_append]
  omega

theorem setmember1d_getD (a b : List ℤ) (j : ℕ) (hj : j < a.length) :
    (setmember1d a b).getD j false
      = (smFlag a b).getD (List.indexOf j (smPerm a b)) false := by
  unfold setmember1d
  have hlen : j < (smIndx a b).length := by rw [smIndx_length]; exact hj
  have hmaplen : j < ((smIndx a b).map (fun q => (smFlag a b).getD q false)).length := by
    rw [List.length_map]
    exact hlen
  rw [List.getD_eq_getElem _ _ hmaplen, List.getElem_map,
    ← List.getD_eq_getElem _ 0 hlen, smIndx_getD a b j hj]

theorem setmember1d_eq_noSwap (a b : List ℤ) :
    setmember1d a b = noSwapMembership a b := by
  unfold setmember1d noSwapMembership
  congr 1
  refine List.ext_getElem ?_ ?_
  · rw [smIndx_length, List.length_take, argsort_length, smPerm_length,
      List.length_append]
    omega
  · intro j h1 h2
    have hj : j < a.length := by rw [smIndx_length] at h1; exact h1
    have hlen2 : j < ((argsortKey 0 (smPerm a b)).take a.length).length := h2
    rw [← List.getD_eq_getElem (smIndx a b) 0 h1,
      ← List.getD_eq_getElem _ 0 hlen2,
      smIndx_getD a b j hj, noswap_indx_getD a b j hj]

theorem setmember1d_getD_iff (a b : List ℤ) (j : ℕ) (hj : j < a.length) :
    ((setmember1d a b).getD j false = true ↔
      ∃ j2, j < j2 ∧ j2 < (a ++ b).length ∧
        (a ++ b).getD j2 0 = (a ++ b).getD j 0) := by
  have hla : a.length ≤ (a ++ b).length := by rw [List.length_append]; omega
  have hjn : j < (a ++ b).length := by omega
  have hqn : List.indexOf j (smPerm a b) < (a ++ b).length :=
    smPerm_indexOf_lt a b j hjn
  have hqval : (smPerm a b).getD (List.indexOf j (smPerm a b)) 0 = j :=
    smPerm_getD_indexOf a b j hjn
  rw [setmember1d_getD a b j hj, smFlag_getD_iff]
  constructor
  · intro h
    obtain ⟨hq1, hval⟩ := h
    refine ⟨(smPerm a b).getD (List.indexOf j (smPerm a b) + 1) 0, ?_,
      smPerm_getD_lt a b _ hq1, ?_⟩
    · have hkrel := smPerm_krelS a b (List.indexOf j (smPerm a b))
        (List.indexOf j (smPerm a b) + 1) (by omega) hq1
      rw [krelS_def] at hkrel
      rcases hkrel with h | h
      · rw [hval] at h
        exact absurd h (lt_irrefl _)
      · have := h.2
        rw [hqval] at this
        exact this
    · rw [hqval] at hval
      exact hval
  · intro h
    obtain ⟨j2, hjj2, hj2n, hveq⟩ := h
    have hq2n : List.indexOf j2 (smPerm a b) < (a ++ b).length :=
      smPerm_indexOf_lt a b j2 hj2n
    have hq2val : (smPerm a b).getD (List.indexOf j2 (smPerm a b)) 0 = j2 :=
      smPerm_getD_indexOf a b j2 hj2n
    have hqq2 : List.indexOf j (smPerm a b) < List.indexOf j2 (smPerm a b) := by
      apply smPerm_lt_of_krelS a b _ _ hqn hq2n
      rw [krelS_def, hqval, hq2val]
      exact Or.inr ⟨hveq.symm, hjj2⟩
    refine ⟨by omega, ?_⟩
    by_cases hcase : List.indexOf j (smPerm a b) + 1 = List.indexOf j2 (smPerm a b)
    · rw [hcase, hq2val, hqval, hveq]
    · have hk1 := smPerm_krelS a b (List.indexOf j (smPerm a b))
        (List.indexOf j (smPerm a b) + 1) (by omega) (by omega)
      have hk2 := smPerm_krelS a b (List.indexOf j (smPerm a b) + 1)
        (List.indexOf j2 (smPerm a b)) (by omega) hq2n
      have hle1 := krelS_le hk1
      have hle2 := krelS_le hk2
      rw [hqval] at hle1
      rw [hq2val] at hle2
      rw [hqval]
      omega

theorem setmember1d_nodup_iff (a b : List ℤ) (ha : a.Nodup) (j : ℕ)
    (hj : j < a.length) :
    ((setmember1d a b).getD j false = true ↔ a.getD j 0 ∈ b) := by
  rw [setmember1d_getD_iff a b j hj]
  constructor
  · rintro ⟨j2, h1, h2, h3⟩
    by_cases hcase : j2 < a.length
    · exfalso
      rw [List.getD_append a b 0 j2 hcase, List.getD_append a b 0 j hj] at h3
      have hj2e : a[j2] = a[j] := by
        rw [← List.getD_eq_getElem a 0 hcase, ← List.getD_eq_getElem a 0 hj]
        exact h3
      have := (List.Nodup.getElem_inj_iff ha).mp hj2e
      omega
    · rw [List.getD_append_right a b 0 j2 (by omega),
        List.getD_append a b 0 j hj] at h3
      have hlenb : j2 - a.length < b.length := by
        rw [List.length_append] at h2
        omega
      rw [← h3, List.getD_eq_getElem b 0 hlenb]
      exact List.getElem_mem hlenb
  · intro hmem
    obtain ⟨k, hk, hbk⟩ := List.getElem_of_mem hmem
    refine ⟨a.length + k, by omega, by rw [List.length_append]; omega, ?_⟩
    rw [List.getD_append_right a b 0 (a.length + k) (by omega),
      List.getD_append a b 0 j hj]
    have hsub : a.length + k - a.length = k := by omega
    rw [hsub, List.getD_eq_getElem b 0 hk, hbk]

theorem setmember1d_empty (a : List ℤ) (ha : a.Nodup) :
    setmember1d a [] = List.replicate a.length false := by
  refine List.ext_getElem ?_ ?_
  · rw [setmember1d_length, List.length_replicate]
  · intro j h1 h2
    have hj : j < a.length := by rw [setmember1d_length] at h1; exact h1
    rw [List.getElem_replicate, ← List.getD_eq_getElem _ false h1]
    cases hb : (setmember1d a []).getD j false
    · rfl
    · exact absurd ((setmember1d_nodup_iff a [] ha j hj).mp hb)
        (List.not_mem_nil _)

theorem boolSelect_filter (P : ℤ → Bool) :
    ∀ (l : List ℤ) (m : List Bool), m.length = l.length →
      (∀ j, j < l.length → m.getD j false = P (l.getD j 0)) →
      boolSelect l m = l.filter P := by
  intro l
  induction l with
  | nil =>
    intro m _ _
    rw [boolSelect_nil]
    rfl
  | cons x t ih =>
    intro m hm hpt
    cases m with
    | nil => simp at hm
    | cons c m2 =>
      rw [boolSelect_cons, List.filter_cons]
      have hc : c = P x := by
        have := hpt 0 (by simp)
        simpa using this
      have ht : boolSelect t m2 = t.filter P := by
        refine ih m2 (by simpa using hm) ?_
        intro j hjt
        have := hpt (j + 1) (by simp; omega)
        simpa using this
      rw [ht, hc]
      by_cases hPx : P x = true
      · rw [if_pos hPx, if_pos hPx]
        rfl
      · rw [if_neg hPx, if_neg hPx]
        rfl

theorem setdiff1d_eq_filter (a b : List ℤ) (ha : a.Nodup) :
    setdiff1d a b = a.filter (fun x => decide (x ∉ b)) := by
  unfold setdiff1d
  by_cases hc : (setmember1d a b).length = 0
  · rw [if_pos hc]
    have hal : a.length = 0 := by rw [← setmember1d_length a b]; exact hc
    have : a = [] := List.length_eq_zero.mp hal
    subst this
    rfl
  · rw [if_neg hc]
    apply boolSelect_filter
    · rw [List.length_map, setmember1d_length]
    · intro j hjlen
      have hjm : j < (setmember1d a b).length := by
        rw [setmember1d_length]
        exact hjlen
      have hmaplen : j < ((setmember1d a b).map (fun m => m == false)).length := by
        rw [List.length_map]
        exact hjm
      rw [List.getD_eq_getElem _ _ hmaplen, List.getElem_map,
        ← List.getD_eq_getElem _ false hjm]
      have hiff := setmember1d_nodup_iff a b ha j hjlen
      by_cases hmem : a.getD j 0 ∈ b
      · rw [hiff.mpr hmem, decide_eq_false (not_not_intro hmem)]
        rfl
      · have hfalse : (setmember1d a b).getD j false = false := by
          cases hb : (setmember1d a b).getD j false
          · rfl
          · exact absurd (hiff.mp hb) hmem
        rw [hfalse, decide_eq_true hmem]
        rfl

/-! Remaining helper facts for the index-returning dedup and the swap set. -/

theorem krel_le {α : Type} [LinearOrder α] {d : α} {l : List α} {i j : ℕ}
    (h : krel d l i j) : l.getD i d ≤ l.getD j d := by
  rcases h with h | h
  · exact le_of_lt h
  · exact le_of_eq h.1

theorem boolSelect_map {α β : Type} (f : α → β) :
    ∀ (l : List α) (m : List Bool),
      boolSelect (l.map f) m = (boolSelect l m).map f := by
  intro l
  induction l with
  | nil =>
    intro m
    rw [List.map_nil, boolSelect_nil, boolSelect_nil]
    rfl
  | cons x t ih =>
    intro m
    cases m with
    | nil =>
      rw [boolSelect_nil_mask, boolSelect_nil_mask]
      rfl
    | cons c m2 =>
      rw [List.map_cons, boolSelect_cons, boolSelect_cons, List.map_append, ih]
      cases c
      · rfl
      · rfl

theorem boolSelect_uniqMask_eq_kf (s : List ℤ) :
    boolSelect s (true :: neFlags s) = kf s := by
  cases s with
  | nil => rw [boolSelect_nil]; rfl
  | cons x t =>
    rw [boolSelect_cons, boolSelect_neFlags_eq_kfAux]
    rfl

theorem smII_mem_tag_iff (a b : List ℤ) (p : ℕ) :
    p ∈ smII a b ↔ (p < (a ++ b).length ∧ (smFlag a b).getD p false = true ∧
      (smAux2 a b).getD p 0 = 1) := by
  rw [smII_mem_iff]
  constructor
  · intro h
    obtain ⟨h1, h2, h3⟩ := h
    refine ⟨h1, h2, ?_⟩
    have := smAux2_getD a b p h1
    by_cases hc : (smPerm a b).getD p 0 < a.length
    · rw [this, if_pos hc] at h3
      exact absurd rfl h3
    · rw [this, if_neg hc]
  · intro h
    obtain ⟨h1, h2, h3⟩ := h
    refine ⟨h1, h2, ?_⟩
    rw [h3]
    exact one_ne_zero

theorem unique1dIdx_of_ne (s : List ℤ) (h : ¬ s.length = 0) :
    unique1dIdx s =
      (.intIdx (boolSelect (argsortKey 0 s)
          (true :: neFlags ((argsortKey 0 s).map (fun p => s.getD p 0)))),
        boolSelect ((argsortKey 0 s).map (fun p => s.getD p 0))
          (true :: neFlags ((argsortKey 0 s).map (fun p => s.getD p 0)))) := by
  unfold unique1dIdx
  rw [if_neg h]

theorem unique1dIdx_sorted_aux (s : List ℤ) :
    ((argsortKey 0 s).map (fun p => s.getD p 0)).Pairwise (fun x y => x ≤ y) := by
  rw [List.pairwise_map]
  exact (argsort_sorted 0 s).imp (fun h => krel_le h)

/-! Claim theorems. -/

/-- Claim C1, counterexample: `setmember1d` on `a = [5, 5]`, `b = []` marks
position 0 as `true` although `5` occurs nowhere in `b`, so the mask is not
the pointwise membership of `a` in `b` when `a` has duplicate values. -/
theorem claim_C1_counterexample :
    setmember1d [(5:ℤ), 5] [] = [true, false] ∧ (5:ℤ) ∉ ([] : List ℤ) := by
  constructor
  · decide
  · decide

/-- Claim C1 (amended): for every pair of sequences with `a` duplicate-free
(`b` may contain repeated values), `setmember1d` returns a mask of length
`len a` with `mask[i]` true iff `a[i]` equals some element of `b`; the mask
only depends on the presence of a value in `b`, never on its multiplicity. -/
theorem claim_C1 (a b : List ℤ) (ha : a.Nodup) :
    (setmember1d a b).length = a.length ∧
    ∀ i, i < a.length →
      ((setmember1d a b).getD i false = true ↔ a.getD i 0 ∈ b) :=
  ⟨setmember1d_length a b, fun i hi => setmember1d_nodup_iff a b ha i hi⟩

/-- Claim C1 witness: the amended claim at `a = [1, 2, 3, 4]`, `b = [2, 4]`. -/
theorem claim_C1_witness :
    List.Nodup [(1:ℤ), 2, 3, 4] ∧
    (setmember1d [(1:ℤ), 2, 3, 4] [2, 4]).length = 4 ∧
    ((setmember1d [(1:ℤ), 2, 3, 4] [2, 4]).getD 1 false = true ↔
      (2:ℤ) ∈ [(2:ℤ), 4]) :=
  ⟨by decide, (claim_C1 [1, 2, 3, 4] [2, 4] (by decide)).1,
    (claim_C1 [1, 2, 3, 4] [2, 4] (by decide)).2 1 (by decide)⟩

/-- Claim C2: `intersect1d` sorts the concatenation and keeps, for each
maximal run of `k` equal values in the merged sorted sequence, exactly
`k - 1` copies of that value (so, per value `v`, `count v (a ++ b) - 1`
copies), in ascending order; and `intersect1d [1,3,3] [3,1,1] = [1,1,3,3]`. -/
theorem claim_C2 (a b : List ℤ) :
    (intersect1d a b).Pairwise (fun x y => x ≤ y) ∧
    (∀ v, (intersect1d a b).count v = (a ++ b).count v - 1) ∧
    intersect1d [1, 3, 3] [3, 1, 1] = [1, 1, 3, 3] :=
  ⟨intersect1d_sorted a b, intersect1d_count a b, by decide⟩

/-- Claim C3: for duplicate-free `a` and arbitrary `b`, the `setmember1d`
mask has length `len a`, `mask[i]` is true iff `a[i]` occurs in `b`, and in
particular `setmember1d a []` is the all-false mask of length `len a`. -/
theorem claim_C3 (a b : List ℤ) (ha : a.Nodup) :
    (∀ i, i < a.length →
      ((setmember1d a b).getD i false = true ↔ a.getD i 0 ∈ b)) ∧
    (setmember1d a b).length = a.length ∧
    setmember1d a [] = List.replicate a.length false :=
  ⟨fun i hi => setmember1d_nodup_iff a b ha i hi, setmember1d_length a b,
    setmember1d_empty a ha⟩

/-- Claim C3 witness: the claim at `a = [1, 2]`, `b = [2]`. -/
theorem claim_C3_witness :
    List.Nodup [(1:ℤ), 2] ∧
    ((setmember1d [(1:ℤ), 2] [2]).getD 0 false = true ↔ (1:ℤ) ∈ [(2:ℤ)]) ∧
    setmember1d [(1:ℤ), 2] [] = List.replicate 2 false :=
  ⟨by decide, (claim_C3 [1, 2] [2] (by decide)).1 0 (by decide),
    (claim_C3 [1, 2] [2] (by decide)).2.2⟩

/-- Claim C4: for internally duplicate-free `a` and `b`, the length of
`setxor1d a b` is `len a + len b - 2 * len (intersect1d_nu a b)`. -/
theorem claim_C4 (a b : List ℤ) (ha : a.Nodup) (hb : b.Nodup) :
    (setxor1d a b).length
      = a.length + b.length - 2 * (intersect1d_nu a b).length := by
  have h := setxor_add_two_inter a b ha hb
  omega

/-- Claim C4 witness: the claim at `a = [1, 2]`, `b = [2, 3]`. -/
theorem claim_C4_witness :
    List.Nodup [(1:ℤ), 2] ∧ List.Nodup [(2:ℤ), 3] ∧
    (setxor1d [(1:ℤ), 2] [2, 3]).length
      = [(1:ℤ), 2].length + [(2:ℤ), 3].length
        - 2 * (intersect1d_nu [(1:ℤ), 2] [2, 3]).length :=
  ⟨by decide, by decide, claim_C4 [1, 2] [2, 3] (by decide) (by decide)⟩

/-- Claim C5: `unique1d` is idempotent and its result is strictly ascending
(hence has no two adjacent equal elements). -/
theorem claim_C5 (s : List ℤ) :
    unique1d (unique1d s) = unique1d s ∧
    (unique1d s).Pairwise (fun x y => x < y) :=
  ⟨unique1d_idempotent s, unique1d_pairwise_lt s⟩

/-- Claim C6: `unique1d` with `return_index=True` returns index and value
sequences of equal length with `values[i] = s[indices[i]]`, and the values
are ascending-sorted and distinct. -/
theorem claim_C6 (s : List ℤ) :
    ((unique1dIdx s).1).size = ((unique1dIdx s).2).length ∧
    (∀ i, i < ((unique1dIdx s).2).length →
      ((unique1dIdx s).2).getD i 0 = s.getD (((unique1dIdx s).1).natAt i) 0) ∧
    ((unique1dIdx s).2).Pairwise (fun x y => x < y) := by
  by_cases h : s.length = 0
  · have hs : s = [] := List.length_eq_zero.mp h
    subst hs
    refine ⟨rfl, ?_, List.Pairwise.nil⟩
    intro i hi
    have h0 : ((unique1dIdx ([] : List ℤ)).2).length = 0 := rfl
    omega
  · rw [unique1dIdx_of_ne s h]
    have hmap := boolSelect_map (fun p => s.getD p 0) (argsortKey 0 s)
      (true :: neFlags ((argsortKey 0 s).map (fun p => s.getD p 0)))
    refine ⟨?_, ?_, ?_⟩
    · show (boolSelect (argsortKey 0 s)
          (true :: neFlags ((argsortKey 0 s).map (fun p => s.getD p 0)))).length = _
      rw [hmap, List.length_map]
    · intro i hi
      show (boolSelect ((argsortKey 0 s).map (fun p => s.getD p 0))
          (true :: neFlags ((argsortKey 0 s).map (fun p => s.getD p 0)))).getD i 0
        = s.getD ((boolSelect (argsortKey 0 s)
          (true :: neFlags ((argsortKey 0 s).map (fun p => s.getD p 0)))).getD i 0) 0
      rw [hmap]
      have hi2 : i < (boolSelect (argsortKey 0 s)
          (true :: neFlags ((argsortKey 0 s).map (fun p => s.getD p 0)))).length := by
        have hi3 : i < (boolSelect ((argsortKey 0 s).map (fun p => s.getD p 0))
            (true :: neFlags ((argsortKey 0 s).map (fun p => s.getD p 0)))).length := hi
        rw [hmap, List.length_map] at hi3
        exact hi3
      have hmaplen : i < ((boolSelect (argsortKey 0 s)
          (true :: neFlags ((argsortKey 0 s).map (fun p => s.getD p 0)))).map
            (fun p => s.getD p 0)).length := by
        rw [List.length_map]
        exact hi2
      rw [List.getD_eq_getElem _ _ hmaplen, List.getElem_map,
        ← List.getD_eq_getElem _ 0 hi2]
    · show (boolSelect ((argsortKey 0 s).map (fun p => s.getD p 0))
        (true :: neFlags ((argsortKey 0 s).map (fun p => s.getD p 0)))).Pairwise
          (fun x y => x < y)
      rw [boolSelect_uniqMask_eq_kf]
      exact kf_pairwise_lt (unique1dIdx_sorted_aux s)

/-- Claim C6 witness: the pointwise index property at `s = [3, 1]`, `i = 0`. -/
theorem claim_C6_witness :
    0 < ((unique1dIdx [(3:ℤ), 1]).2).length ∧
    ((unique1dIdx [(3:ℤ), 1]).2).getD 0 0
      = [(3:ℤ), 1].getD (((unique1dIdx [(3:ℤ), 1]).1).natAt 0) 0 :=
  ⟨by decide, (claim_C6 [3, 1]).2.1 0 (by decide)⟩

/-- Claim C7: for internally duplicate-free `a` and `b`, `setdiff1d a b` and
`intersect1d_nu a b` partition `a`: they are disjoint and their union has
exactly the elements of `unique1d a`. -/
theorem claim_C7 (a b : List ℤ) (ha : a.Nodup) (hb : b.Nodup) :
    (∀ x, x ∈ setdiff1d a b → x ∉ intersect1d_nu a b) ∧
    (∀ x, x ∈ unique1d a ↔ (x ∈ setdiff1d a b ∨ x ∈ intersect1d_nu a b)) := by
  constructor
  · intro x hx
    rw [setdiff1d_eq_filter a b ha, List.mem_filter] at hx
    intro hnu
    have hm := (mem_intersect1d_nu_iff ha hb).mp hnu
    have hnotb := hx.2
    simp only [decide_eq_true_eq] at hnotb
    exact hnotb hm.2
  · intro x
    rw [mem_unique1d_iff, setdiff1d_eq_filter a b ha, List.mem_filter,
      mem_intersect1d_nu_iff ha hb]
    constructor
    · intro hxa
      by_cases hxb : x ∈ b
      · exact Or.inr ⟨hxa, hxb⟩
      · exact Or.inl ⟨hxa, decide_eq_true hxb⟩
    · intro h
      rcases h with h | h
      · exact h.1
      · exact h.1

/-- Claim C7 witness: the partition at `a = [1, 2, 3, 4]`, `b = [2, 4]`,
`x = 1`. -/
theorem claim_C7_witness :
    List.Nodup [(1:ℤ), 2, 3, 4] ∧ List.Nodup [(2:ℤ), 4] ∧
    ((1:ℤ) ∈ unique1d [(1:ℤ), 2, 3, 4] ↔
      ((1:ℤ) ∈ setdiff1d [(1:ℤ), 2, 3, 4] [2, 4] ∨
        (1:ℤ) ∈ intersect1d_nu [(1:ℤ), 2, 3, 4] [2, 4])) :=
  ⟨by decide, by decide,
    (claim_C7 [1, 2, 3, 4] [2, 4] (by decide) (by decide)).2 1⟩

/-- Claim C8, counterexample: on `a = [2]`, `b = [2]`, sorted position 0 is
flagged and carries origin tag 0, yet the code performs no swap there
(`smII = []`); and the code's output `[true]` differs from the output
`[false]` of the specification's algorithm, which swaps at flagged tag-0
positions. -/
theorem claim_C8_counterexample :
    (smII [(2:ℤ)] [2] = [] ∧ (smFlag [(2:ℤ)] [2]).getD 0 false = true ∧
      (smAux2 [(2:ℤ)] [2]).getD 0 0 = 0) ∧
    setmember1d [(2:ℤ)] [2] = [true] ∧
    specMembership [(2:ℤ)] [2] = [false] := by
  refine ⟨⟨?_, ?_, ?_⟩, ?_, ?_⟩ <;> decide

/-- Claim C8 (amended): after the stable sort and adjacency flagging,
`setmember1d` swaps the sort-permutation entries at `i` and `i + 1` exactly
for every flagged position `i` whose origin tag is 1 (a `b`-origin element
immediately followed by an equal element); the swap only touches entries
that the final slice discards, so the overall function equals the algorithm
without any swap step (stable sort, flag, invert the permutation, take the
first `len a` entries, index the flags). -/
theorem claim_C8 (a b : List ℤ) :
    (∀ p, p ∈ smII a b ↔
      (p < (a ++ b).length ∧ (smFlag a b).getD p false = true ∧
        (smAux2 a b).getD p 0 = 1)) ∧
    setmember1d a b = noSwapMembership a b :=
  ⟨fun p => smII_mem_tag_iff a b p, setmember1d_eq_noSwap a b⟩

/-- Claim C9, counterexample: the flag sequence built by `setxor1d` has
length `len m + 1`, not `len m + 2`: on `a = [1]`, `b = [2]` the flag has
length 3 while the merged sorted sequence has length 2. -/
theorem claim_C9_counterexample :
    ¬ ((setxorFlag [(1:ℤ)] [2]).length
        = (sortInts ([(1:ℤ)] ++ [2])).length + 2) := by
  decide

/-- Claim C9 (amended): for a nonempty concatenation, the flag sequence `f`
built by `setxor1d` has length `len m + 1` with `f[0] = true`,
`f[len m] = true` and interior `f[i] = (m[i] ≠ m[i-1])`; with
`g[i] = (f[i] == f[i+1])` and output `m[i]` where `g[i]`, the function
equals this specification (`specXor`) on all inputs. -/
theorem claim_C9 (a b : List ℤ) :
    ((a ++ b).length ≠ 0 →
      (setxorFlag a b).length = (sortInts (a ++ b)).length + 1) ∧
    setxor1d a b = specXor a b := by
  constructor
  · intro hne
    unfold setxorFlag
    rw [List.length_append] at hne
    simp only [List.length_cons, List.length_append, neFlags_length,
      sortInts_length, List.length_singleton, List.length_nil]
    omega
  · rw [setxor1d_eq_xorSel, specXor_eq_xorSel]

/-- Claim C9 witness: the amended claim at `a = [1]`, `b = [2, 2]`. -/
theorem claim_C9_witness :
    (([(1:ℤ)] ++ [2, 2]).length ≠ 0 ∧
      (setxorFlag [(1:ℤ)] [2, 2]).length
        = (sortInts ([(1:ℤ)] ++ [2, 2])).length + 1) ∧
    setxor1d [(1:ℤ)] [2, 2] = specXor [(1:ℤ)] [2, 2] :=
  ⟨⟨by decide, (claim_C9 [1] [2, 2]).1 (by decide)⟩, (claim_C9 [1] [2, 2]).2⟩

/-- Claim C10: `unique1d` on empty input returns an empty result; with
`return_index=True` it returns a boolean-typed empty index array paired
with the empty value sequence, whereas every nonempty input produces an
integer-typed index array. -/
theorem claim_C10 :
    unique1d [] = [] ∧
    unique1dIdx [] = (.boolIdx [], []) ∧
    ∀ s : List ℤ, s ≠ [] → ∃ l, (unique1dIdx s).1 = .intIdx l := by
  refine ⟨rfl, rfl, ?_⟩
  intro s hs
  have h : ¬ s.length = 0 := by
    intro h0
    exact hs (List.length_eq_zero.mp h0)
  rw [unique1dIdx_of_ne s h]
  exact ⟨_, rfl⟩

/-- Claim C10 witness: the nonempty branch at `s = [2]`. -/
theorem claim_C10_witness :
    ([(2:ℤ)] ≠ []) ∧ ∃ l, (unique1dIdx [(2:ℤ)]).1 = .intIdx l :=
  ⟨by decide, claim_C10.2.2 [2] (by decide)⟩
